import Mathlib

/-!
Verification of the `State` class of the ember-states addon
(`addon/state.js`), shallowly embedded in Lean 4.

JavaScript objects used as string-keyed dictionaries are modelled as
association lists (`List (String × v)`); property read is `List.lookup`
(absent key = `none`, modelling `undefined`) and property write is
`objSet` (overwrite-or-append, as JS assignment).  JS string truthiness
(`undefined`, `null` and `""` are falsy) is `jsTruthyStr`.
-/

namespace EmberStates

/-- JS property assignment `obj[k] = v` on an object modelled as an
association list: overwrites the existing binding for `k`, otherwise
appends a new one.  Keys are strings for ordinary objects and guid
numbers for the caches dictionary. -/
def objSet {κ v : Type} [BEq κ] : List (κ × v) → κ → v → List (κ × v)
  | [], k, x => [(k, x)]
  | (k1, x1) :: rest, k, x =>
      if k1 == k then (k, x) :: rest else (k1, x1) :: objSet rest k x

/-- Truthiness of a JS value that is either a string or null/undefined:
`undefined`/`null` (here `none`) and the empty string are falsy. -/
def jsTruthyStr : Option String → Bool
  | none => false
  | some s => s ≠ ""

/-!
## Parent-chain view of a state

`path` (state.js lines 96-105) and `lookupEventTransition` (lines
250-259) read only the chain of a node, its `parentState`, the
parent's `parentState`, and so on up to the root.  We model that chain
as a nonempty `List Frame`: the head is the node itself, the last
element the root; `parentState = null` at the root corresponds to the
end of the list.  A frame carries the fields those two functions read:
`name` (a JS string or `null`, hence `Option String`) and the
`eventTransitions` dictionary.
-/

structure Frame where
  name : Option String
  eventTransitions : List (String × String)
deriving DecidableEq, Repr

/-- JS string coercion as performed by `parentPath + '.' + path` when
`path` (the `name`) is `null`: `"" + null` yields `"null"`. -/
def jsStringOf : Option String → String
  | none => "null"
  | some s => s

/-- The `path` computed property (state.js lines 96-105) over a parent
chain.  `get(this, 'parentState.path')` on a missing parent yields
`undefined` (`none`); `if (parentPath)` is JS truthiness, so a `null`
or empty parent path leaves the bare `name`.  The `Ember.computed`
wrapper itself is framework code outside this repository; we model a
query of the property as an evaluation of its getter. -/
def pathOf : List Frame → Option String
  | [] => none
  | f :: rest =>
      match pathOf rest with
      | some pp => if pp ≠ "" then some (pp ++ "." ++ jsStringOf f.name) else f.name
      | none => f.name

/-- Method `lookupEventTransition` (state.js lines 250-259): the
`while (state && !path)` loop walks up the chain re-assigning
`path = state.eventTransitions[name]` each step, so it stops early
only on a *truthy* entry, and at the root it returns whatever the last
read produced (possibly a falsy `""`). -/
def lookupEventTransition (name : String) : List Frame → Option String
  | [] => none
  | f :: rest =>
      match rest with
      | [] => f.eventTransitions.lookup name
      | _ :: _ =>
          if jsTruthyStr (f.eventTransitions.lookup name) then
            f.eventTransitions.lookup name
          else
            lookupEventTransition name rest

/-- The lookup rule as the specification words it: the entry of the
nearest node on the chain that *has* an entry for the event, absent
when none has one.  Kept separate from `lookupEventTransition`
(translated from the source) so the two can be compared. -/
def nearestDeclaredEntry (name : String) : List Frame → Option String
  | [] => none
  | f :: rest =>
      match f.eventTransitions.lookup name with
      | some v => some v
      | none => nearestDeclaredEntry name rest

/-!
## Heap model of state objects

`setupChild` (state.js lines 221-242) mutates both the child value
(its `name`, `container` and `parentState`) and the receiver (its
`childStates` and the local `states` dictionary), so we model state
objects operationally: a heap maps numeric object identities to their
mutable fields, and every operation returns the updated heap.  `fresh`
is the next unallocated identity (`value.create(...)` allocates).
-/

structure NodeData where
  name : Option String
  parentState : Option Nat
  childStates : List Nat
  eventTransitions : List (String × String)
  container : Option Nat
deriving Repr

structure Mem where
  heap : Nat → NodeData
  fresh : Nat

/-- Update the fields of one object on the heap. -/
def updNode (m : Mem) (i : Nat) (f : NodeData → NodeData) : Mem :=
  ⟨fun j => if j = i then f (m.heap j) else m.heap j, m.fresh⟩

/-- The values `init`'s property scan and `setupChild` can receive.
`stateInst i` is an existing `State` instance (heap object `i`);
`stateClass` is a `State` subclass recognised by `State.detect` — we
model a subclass whose own body declares no further child states, so
`value.create(...)` allocates one bare node; `transFn t` is a function
produced by `State.transitionTo(t)`, carrying `transitionTarget = t`;
`otherTruthy` is any other truthy value (a plain method, a number, an
ordinary object); `falsyV` is any falsy value. -/
inductive DeclVal where
  | falsyV
  | stateInst (i : Nat)
  | stateClass
  | transFn (target : String)
  | otherTruthy
deriving DecidableEq, Repr

/-- JS truthiness of a declaration value: only `falsyV` is falsy
(functions, instances and classes are all truthy objects). -/
def jsTruthyVal : DeclVal → Bool
  | DeclVal.falsyV => false
  | _ => true

/-- Reading the `transitionTarget` property (state.js line 153 reads
it, line 346 writes it on the produced function): present only on a
`State.transitionTo` result, `undefined` on everything else. -/
def transitionTargetOf : DeclVal → Option String
  | DeclVal.transFn t => some t
  | _ => none

/-- Static `State.transitionTo` (state.js lines 327-349) as seen by the tree
builder: it returns a function tagged with
`transitionFunction.transitionTarget = target`.  (The behaviour of the
function when invoked is modelled separately by
`transitionFunction`.) -/
def transitionTo (target : String) : DeclVal :=
  DeclVal.transFn target

/-- What `setupChild` returns: `false` on falsy input (line 222), the
attached instance (line 240), or `undefined` when the final
`instance instanceof State` guard fails. -/
inductive SCResult where
  | retFalse
  | retInstance (i : Nat)
  | retUndefined
deriving DecidableEq, Repr

/-- state.js lines 236-241: `set(instance, 'parentState', this)`,
`get(this, 'childStates').pushObject(instance)`,
`states[name] = instance`, `return instance`. -/
def attachChild (m : Mem) (thisId : Nat) (states : List (String × Nat))
    (name : String) (i : Nat) : Mem × List (String × Nat) × SCResult :=
  let m1 := updNode m i (fun d => { d with parentState := some thisId })
  let m2 := updNode m1 thisId (fun d => { d with childStates := d.childStates ++ [i] })
  (m2, objSet states name i, SCResult.retInstance i)

/-- Method `setupChild` (state.js lines 221-242).  A falsy value returns
`false` untouched.  A `State` instance gets its `name` reassigned and
its `container` copied from the receiver; a `State` subclass is
instantiated as a fresh bare node with that `name` and `container`
(its `init` sets empty `childStates`/`eventTransitions`); anything
else leaves `instance` undefined, so the final `instanceof` guard
fails and nothing is recorded. -/
def setupChild (m : Mem) (thisId : Nat) (states : List (String × Nat))
    (name : String) (value : DeclVal) : Mem × List (String × Nat) × SCResult :=
  match value with
  | DeclVal.falsyV => (m, states, SCResult.retFalse)
  | DeclVal.stateInst i =>
      let m1 := updNode m i
        (fun d => { d with name := some name, container := (m.heap thisId).container })
      attachChild m1 thisId states name i
  | DeclVal.stateClass =>
      let i := m.fresh
      let child : NodeData :=
        ⟨some name, none, [], [], (m.heap thisId).container⟩
      let m1 : Mem := ⟨fun j => if j = i then child else m.heap j, m.fresh + 1⟩
      attachChild m1 thisId states name i
  | _ => (m, states, SCResult.retUndefined)

/-- Writing `this.eventTransitions[name] = transitionTarget`
(state.js line 154). -/
def registerTransition (m : Mem) (thisId : Nat) (name : String) (t : String) : Mem :=
  updNode m thisId
    (fun d => { d with eventTransitions := objSet d.eventTransitions name t })

/-- Lines 152-155 of state.js: `if (transitionTarget =
value.transitionTarget) { this.eventTransitions[name] =
transitionTarget; }` — the registration happens only when the marker
read back is truthy (present and non-empty). -/
def markerRegister (thisId : Nat) (m : Mem) (name : String) (v : DeclVal) : Mem :=
  match transitionTargetOf v with
  | some t => if t ≠ "" then registerTransition m thisId name t else m
  | none => m

/-- One iteration of `init`'s `for (name in this)` scan (state.js
lines 149-159): skip `constructor`; on a truthy value, first register
a truthy `transitionTarget` marker into `eventTransitions`, then hand
the value to `setupChild`. -/
def initScanStep (thisId : Nat) (acc : Mem × List (String × Nat))
    (p : String × DeclVal) : Mem × List (String × Nat) :=
  if p.1 = "constructor" then acc
  else if jsTruthyVal p.2 then
    let m1 := markerRegister thisId acc.1 p.1 p.2
    let r := setupChild m1 thisId acc.2 p.1 p.2
    (r.1, r.2.1)
  else acc

/-- Method `init` (state.js lines 133-171) on the path taken when no explicit
`states` mapping is present: `childStates` is reset to a fresh empty
array, then the object's own properties (given here as the ordered
list `decl`) are scanned by `initScanStep`; the built `states`
dictionary is returned alongside the heap.  (`eventTransitions || {}`
only replaces a missing dictionary by an empty one, which the
`NodeData` representation already guarantees; `pathsCaches = {}` is
modelled by the separate cache component.) -/
def initNoStates (m : Mem) (thisId : Nat) (decl : List (String × DeclVal)) :
    Mem × List (String × Nat) :=
  let m0 := updNode m thisId (fun d => { d with childStates := [] })
  decl.foldl (initScanStep thisId) (m0, [])

/-- One iteration of `init`'s `for (name in states)` loop (state.js
lines 163-165): the entry goes straight to `setupChild`. -/
def statesHashStep (thisId : Nat) (acc : Mem × List (String × Nat))
    (p : String × DeclVal) : Mem × List (String × Nat) :=
  let r := setupChild acc.1 thisId acc.2 p.1 p.2
  (r.1, r.2.1)

/-- Method `init` on the path taken when an explicit `states` mapping is
present (state.js lines 162-166): every entry of that mapping goes
straight to `setupChild`, with no `transitionTarget` scan.  The
returned dictionary records the instance registrations
`states[name] = instance` performed by `setupChild`. -/
def initWithStates (m : Mem) (thisId : Nat) (statesDecl : List (String × DeclVal)) :
    Mem × List (String × Nat) :=
  let m0 := updNode m thisId (fun d => { d with childStates := [] })
  statesDecl.foldl (statesHashStep thisId) (m0, [])

/-- The heap identity a declaration entry attaches, when it holds an
existing `State` instance. -/
def declInstId : String × DeclVal → Option Nat
  | (_, DeclVal.stateInst i) => some i
  | _ => none

/-- Property `isLeaf` (state.js lines 269-271): `!this.get('childStates').length`,
i.e. the length-zero test on the current `childStates`.  As with
`path`, a query of the computed property is modelled as an evaluation
of its getter. -/
def isLeaf (m : Mem) (i : Nat) : Bool :=
  (m.heap i).childStates.isEmpty

/-- Heap well-formedness: every recorded child identity is an
allocated object. -/
def WFMem (m : Mem) : Prop :=
  ∀ p, p < m.fresh → ∀ c, c ∈ (m.heap p).childStates → c < m.fresh

/-- The spec's tree-ownership invariant: a node registered in some
node's `childStates` is registered only there, namely in the
`childStates` of the node its `parentState` designates (so it is a
child of at most one parent). -/
def TreeInv (m : Mem) : Prop :=
  ∀ c, c < m.fresh → ∀ p, p < m.fresh →
    c ∈ (m.heap p).childStates → (m.heap c).parentState = some p

/-- Object `i` is not currently registered as anyone's child. -/
def Unattached (m : Mem) (i : Nat) : Prop :=
  ∀ p, p < m.fresh → i ∉ (m.heap p).childStates

/-!
## The transition-action callable

An argument passed after the `stateManager` is either an ordinary
value or a `jQuery Event` instance (`contextOrEvent instanceof
Ember.$.Event`, state.js line 333), which may or may not carry its own
`contexts` array property (line 334).  Context values themselves are
opaque, so they are a type parameter.  We model jQuery as present
(`Ember.$ && Ember.$.Event` truthy); without it no value is an `Event`
instance and every call takes the literal-arguments branch anyway.
-/

inductive JSArg (ctx : Type) where
  | plain (v : ctx)
  | event (contexts : Option (List ctx))
deriving DecidableEq, Repr

/-- The `transitionFunction` closure built by `State.transitionTo`
(state.js lines 329-344), returning the argument list it forwards to
`stateManager.transitionTo.apply`: the target first, then the
contexts.  An `Event` first argument with an own `contexts` property
contributes a shallow copy of that array; an `Event` without one
leaves `contexts` as the initial empty array (the `else` on line 338
belongs to the outer `if`); any other shape takes
`[].slice.call(arguments, 1)`, the literal trailing arguments. -/
def transitionFunction {ctx : Type} (target : String) (args : List (JSArg ctx)) :
    String × List (JSArg ctx) :=
  match args with
  | JSArg.event (some cs) :: _ => (target, cs.map JSArg.plain)
  | JSArg.event none :: _ => (target, [])
  | _ => (target, args)

/-!
## `trigger`

`trigger` (state.js lines 116-121) calls a same-named method when one
is defined on the object, then unconditionally calls
`this._super.apply(this, arguments)`, Ember.Evented's generic
emission.  Modelled from the spec: `Ember.Evented` is framework code
outside this repository; per the spec's generic event-notification
mechanism, emission notifies each listener registered for the event
name once, in registration order, with the trailing arguments.  We
record the observable calls as a trace.
-/

inductive TraceEv (ctx : Type) where
  | methodCall (name : String) (args : List ctx)
  | notify (listener : Nat) (name : String) (args : List ctx)
deriving DecidableEq, Repr

structure TrigNode (ctx : Type) where
  hasMethod : String → Bool
  listeners : String → List Nat

/-- Method `trigger(name, ...args)`: `if (this[name]) this[name].apply(this,
[].slice.call(arguments, 1))`, then `this._super.apply(this,
arguments)` — the method (when defined) receives the arguments after
the name, and generic emission for `name` always follows. -/
def trigger {ctx : Type} (n : TrigNode ctx) (name : String) (args : List ctx) :
    List (TraceEv ctx) :=
  (if n.hasMethod name then [TraceEv.methodCall name args] else [])
    ++ (n.listeners name).map (fun l => TraceEv.notify l name args)

/-!
## The per-manager-type paths cache

`pathsCaches` (state.js lines 168-170, 184-209) is a dictionary keyed
by `Ember.guidFor(stateManager.constructor)` — the guid of the
manager's *constructor*, stable across all instances of one manager
type — whose values are dictionaries from path strings to cached
transition data (opaque here, a type parameter).  A manager is
modelled by its constructor identity plus an instance identity, and
`guidFor(constructor)` by the constructor identity.
-/

structure Manager where
  ctorId : Nat
  instId : Nat
deriving DecidableEq, Repr

/-- The key `Ember.guidFor(stateManager.constructor)`: a stable key of the
manager's type, the same for every instance of that type. -/
def guidForConstructor (sm : Manager) : Nat :=
  sm.ctorId

/-- The `pathsCaches` dictionary: manager-type guid to
(path to cached transitions). -/
def PathsCaches (v : Type) : Type :=
  List (Nat × List (String × v))

/-- The `pathsCaches = {}` set by `init` (state.js line 170). -/
def emptyPathsCaches (v : Type) : PathsCaches v :=
  []

/-- Method `setPathsCache` (state.js lines 184-191): fetch the sub-dictionary
for the manager-type guid (an empty one when missing), store the
transitions under `path`, and write the sub-dictionary back. -/
def setPathsCache {v : Type} (c : PathsCaches v) (sm : Manager) (path : String)
    (transitions : v) : PathsCaches v :=
  let g := guidForConstructor sm
  let pathsCacheForManager := (c.lookup g).getD []
  objSet c g (objSet pathsCacheForManager path transitions)

/-- Method `getPathsCache` (state.js lines 203-209), with its full effect
signature: the returned lookup result together with the cache as the
method leaves it.  The empty sub-dictionary consulted when the
manager-type guid is missing is never written back. -/
def getPathsCacheSt {v : Type} (c : PathsCaches v) (sm : Manager) (path : String) :
    Option v × PathsCaches v :=
  let g := guidForConstructor sm
  let pathsCacheForManager := (c.lookup g).getD []
  (pathsCacheForManager.lookup path, c)

/-- The value `getPathsCache` returns. -/
def getPathsCache {v : Type} (c : PathsCaches v) (sm : Manager) (path : String) :
    Option v :=
  (getPathsCacheSt c sm path).1

/-!
## Concrete memories used for evaluation

A three-object heap (identities 0, 1, 2) of bare, unattached,
childless nodes, and the heaps reached by attaching node 0 first to
node 1 and then, a second time, to node 2.
-/

def memThree : Mem :=
  ⟨fun _ => ⟨none, none, [], [], none⟩, 3⟩

def memAttachOnce : Mem :=
  (setupChild memThree 1 [] "x" (DeclVal.stateInst 0)).1

def memReattached : Mem :=
  (setupChild memAttachOnce 2 [] "y" (DeclVal.stateInst 0)).1

/-- A node whose `enter` method is defined and which has listeners 4
and 7 registered for `"enter"`. -/
def enterNode : TrigNode Nat :=
  ⟨fun s => s == "enter", fun s => if s == "enter" then [4, 7] else []⟩

/-- Whether the first argument after the manager is a `jQuery Event`
instance (the test on state.js line 333). -/
def firstArgIsEvent {ctx : Type} : List (JSArg ctx) → Bool
  | JSArg.event _ :: _ => true
  | _ => false

instance (m : Mem) : Decidable (WFMem m) :=
  decidable_of_iff
    (∀ p < m.fresh, ∀ c ∈ (m.heap p).childStates, c < m.fresh) Iff.rfl

instance (m : Mem) : Decidable (TreeInv m) :=
  decidable_of_iff
    (∀ c < m.fresh, ∀ p < m.fresh,
      c ∈ (m.heap p).childStates → (m.heap c).parentState = some p) Iff.rfl

instance (m : Mem) (i : Nat) : Decidable (Unattached m i) :=
  decidable_of_iff (∀ p < m.fresh, i ∉ (m.heap p).childStates) Iff.rfl

/-!
## Dictionary lemmas
-/

theorem lookup_objSet_self {κ v : Type} [BEq κ] [LawfulBEq κ]
    (l : List (κ × v)) (k : κ) (x : v) :
    (objSet l k x).lookup k = some x := by
  induction l with
  | nil => simp [objSet, List.lookup]
  | cons hd tl ih =>
      obtain ⟨k1, x1⟩ := hd
      by_cases h : k1 = k
      · simp [objSet, h, List.lookup]
      · have hb : (k1 == k) = false := by
          rw [beq_eq_false_iff_ne]; exact h
        have hb2 : (k == k1) = false := by
          rw [beq_eq_false_iff_ne]; exact Ne.symm h
        simp [objSet, hb, hb2, List.lookup, ih]

theorem lookup_objSet_other {κ v : Type} [BEq κ] [LawfulBEq κ]
    (l : List (κ × v)) (k k2 : κ) (x : v)
    (hne : k2 ≠ k) : (objSet l k x).lookup k2 = l.lookup k2 := by
  have hb : (k2 == k) = false := by rw [beq_eq_false_iff_ne]; exact hne
  induction l with
  | nil => simp [objSet, List.lookup, hb]
  | cons hd tl ih =>
      obtain ⟨k1, x1⟩ := hd
      by_cases h : k1 = k
      · subst h
        simp [objSet, List.lookup, hb]
      · have hb1 : (k1 == k) = false := by
          rw [beq_eq_false_iff_ne]; exact h
        simp [objSet, hb1, List.lookup, ih]

/-!
## Claim C2 — derived path
-/

/-- Claim C2: with the parent chain fully wired, the derived `path` of
a node with a parent whose path is a nonempty string is
`parent.path ++ "." ++ name`; otherwise (no parent, or a parent whose
path is null or empty) it is the bare `name`; and on a chain
`root → a → b → n` whose root has no name, `n`'s path is
`"a.b." ++ n.name`, the unnamed root contributing no leading
segment. -/
theorem path_parent_chain :
    (∀ (f : Frame) (rest : List Frame) (pp nm : String),
        pathOf rest = some pp → pp ≠ "" → f.name = some nm →
        pathOf (f :: rest) = some (pp ++ "." ++ nm)) ∧
    (∀ (f : Frame) (rest : List Frame),
        (rest = [] ∨ pathOf rest = none ∨ pathOf rest = some "") →
        pathOf (f :: rest) = f.name) ∧
    (∀ (nm : String) (e1 e2 e3 e4 : List (String × String)),
        pathOf [⟨some nm, e1⟩, ⟨some "b", e2⟩, ⟨some "a", e3⟩, ⟨none, e4⟩] =
          some ("a.b." ++ nm)) := by
  refine ⟨?_, ?_, ?_⟩
  · intro f rest pp nm hpp hne hnm
    simp [pathOf, hpp, hne, jsStringOf, hnm]
  · intro f rest h
    rcases h with h | h | h
    · subst h; simp [pathOf]
    · simp [pathOf, h]
    · simp [pathOf, h]
  · intro nm e1 e2 e3 e4
    rfl

/-- Concrete instances of claim C2, one for each branch of the
theorem. -/
theorem path_parent_chain_witness :
    pathOf [⟨some "n", []⟩, ⟨some "a", []⟩] = some ("a" ++ "." ++ "n") ∧
    pathOf [⟨some "x", []⟩] = (⟨some "x", []⟩ : Frame).name ∧
    pathOf [⟨some "n", []⟩, ⟨some "b", []⟩, ⟨some "a", []⟩, ⟨none, []⟩] =
      some ("a.b." ++ "n") :=
  ⟨path_parent_chain.1 ⟨some "n", []⟩ [⟨some "a", []⟩] "a" "n" rfl (by decide) rfl,
   path_parent_chain.2.1 ⟨some "x", []⟩ [] (Or.inl rfl),
   path_parent_chain.2.2 "n" [] [] [] []⟩

/-!
## Claim C7 — `isLeaf`
-/

/-- Claim C7: `isLeaf` is true exactly when `childStates` is empty at
query time; in particular it answers true before and false after a
child is attached to the same node. -/
theorem isLeaf_iff_childStates_empty :
    (∀ (m : Mem) (i : Nat), isLeaf m i = true ↔ (m.heap i).childStates = []) ∧
    (∀ (m : Mem) (p : Nat) (st : List (String × Nat)) (name : String) (i : Nat),
        (m.heap p).childStates = [] →
        isLeaf m p = true ∧
        isLeaf (setupChild m p st name (DeclVal.stateInst i)).1 p = false) := by
  constructor
  · intro m i
    simp [isLeaf, List.isEmpty_iff]
  · intro m p st name i h
    constructor
    · simp [isLeaf, List.isEmpty_iff, h]
    · by_cases hpi : p = i
      · subst hpi
        simp [setupChild, attachChild, updNode, isLeaf, List.isEmpty_iff, h]
      · simp [setupChild, attachChild, updNode, isLeaf, List.isEmpty_iff, h, hpi]

/-- Concrete instance of claim C7: node 1 of the three-node heap is a
leaf until node 0 is attached to it. -/
theorem isLeaf_iff_childStates_empty_witness :
    isLeaf memThree 1 = true ∧
    isLeaf (setupChild memThree 1 [] "x" (DeclVal.stateInst 0)).1 1 = false :=
  isLeaf_iff_childStates_empty.2 memThree 1 [] "x" 0 rfl

/-!
## Claim C8 — malformed child declarations
-/

/-- Claim C8: `setupChild` on a falsy value is a no-op returning
`false`; on a truthy value that is neither a `State` instance nor a
`State` subclass (including a transition-action function) it is a
no-op returning `undefined` — the heap, the `states` dictionary and
every `childStates` list are left untouched, and no error is
raised (the embedding is a total function). -/
theorem setupChild_malformed_noop :
    (∀ (m : Mem) (thisId : Nat) (st : List (String × Nat)) (name : String),
        setupChild m thisId st name DeclVal.falsyV = (m, st, SCResult.retFalse)) ∧
    (∀ (m : Mem) (thisId : Nat) (st : List (String × Nat)) (name : String),
        setupChild m thisId st name DeclVal.otherTruthy =
          (m, st, SCResult.retUndefined)) ∧
    (∀ (m : Mem) (thisId : Nat) (st : List (String × Nat)) (name : String)
        (t : String),
        setupChild m thisId st name (DeclVal.transFn t) =
          (m, st, SCResult.retUndefined)) :=
  ⟨fun _ _ _ _ => rfl, fun _ _ _ _ => rfl, fun _ _ _ _ _ => rfl⟩

/-!
## Claim C10 — `getPathsCache` is read-only
-/

/-- Claim C10: `getPathsCache` leaves `pathsCaches` exactly as it
found it — the empty sub-dictionary consulted for a manager type with
no entries is discarded, never installed — and a lookup for a
manager type with no entries returns `undefined`. -/
theorem getPathsCache_readonly {v : Type} :
    (∀ (c : PathsCaches v) (sm : Manager) (p : String),
        (getPathsCacheSt c sm p).2 = c) ∧
    (∀ (c : PathsCaches v) (sm : Manager) (p : String),
        c.lookup (guidForConstructor sm) = none →
        (getPathsCacheSt c sm p).1 = none) := by
  constructor
  · intro c sm p
    rfl
  · intro c sm p h
    simp [getPathsCacheSt, h, List.lookup]

/-- Concrete instance of claim C10: a query on the empty cache returns
`undefined` and leaves the cache empty. -/
theorem getPathsCache_readonly_witness :
    (getPathsCacheSt (emptyPathsCaches Nat) ⟨0, 0⟩ "a.b").2 = emptyPathsCaches Nat ∧
    (getPathsCacheSt (emptyPathsCaches Nat) ⟨0, 0⟩ "a.b").1 = none :=
  ⟨(@getPathsCache_readonly Nat).1 (emptyPathsCaches Nat) ⟨0, 0⟩ "a.b",
   (@getPathsCache_readonly Nat).2 (emptyPathsCaches Nat) ⟨0, 0⟩ "a.b" rfl⟩

/-!
## Claim C5 — the per-manager-type paths cache
-/

theorem getPathsCache_setPathsCache_other {v : Type} (c : PathsCaches v)
    (o : Manager) (po : String) (x : v) (sm : Manager) (q : String)
    (h : ¬(o.ctorId = sm.ctorId ∧ po = q))
    (h0 : getPathsCache c sm q = none) :
    getPathsCache (setPathsCache c o po x) sm q = none := by
  simp only [getPathsCache, getPathsCacheSt, setPathsCache, guidForConstructor] at h0 ⊢
  by_cases hg : o.ctorId = sm.ctorId
  · have hp : q ≠ po := fun hpq => h ⟨hg, hpq.symm⟩
    rw [hg, lookup_objSet_self]
    simp only [Option.getD_some]
    rw [lookup_objSet_other _ _ _ _ hp]
    exact h0
  · rw [lookup_objSet_other _ _ _ _ (fun hc => hg hc.symm)]
    exact h0

theorem getPathsCache_foldl_none {v : Type} (ops : List (Manager × String × v))
    (sm : Manager) (q : String) (c : PathsCaches v)
    (h0 : getPathsCache c sm q = none)
    (havoid : ∀ o ∈ ops, ¬(o.1.ctorId = sm.ctorId ∧ o.2.1 = q)) :
    getPathsCache
      (ops.foldl (fun acc o => setPathsCache acc o.1 o.2.1 o.2.2) c) sm q = none := by
  induction ops generalizing c with
  | nil => exact h0
  | cons o rest ih =>
      simp only [List.foldl_cons]
      refine ih _ ?_ ?_
      · exact getPathsCache_setPathsCache_other c o.1 o.2.1 o.2.2 sm q
          (havoid o (List.mem_cons_self o rest)) h0
      · intro o2 ho2
        exact havoid o2 (List.mem_cons_of_mem o ho2)

/-- Claim C5: a value stored under `(manager type, path)` is read back
by any manager instance of the same constructor — the same instance or
a distinct one — and an overwrite is unconditional (the store works on
any prior cache, in particular one already holding that key); a
`(manager type, path)` pair never stored, starting from the empty
cache `init` installs, reads back as `undefined`. -/
theorem pathsCache_shared_roundtrip {v : Type} :
    (∀ (c : PathsCaches v) (m1 m2 : Manager) (p : String) (x : v),
        m1.ctorId = m2.ctorId →
        getPathsCache (setPathsCache c m1 p x) m2 p = some x) ∧
    (∀ (ops : List (Manager × String × v)) (sm : Manager) (q : String),
        (∀ o ∈ ops, ¬(o.1.ctorId = sm.ctorId ∧ o.2.1 = q)) →
        getPathsCache
          (ops.foldl (fun acc o => setPathsCache acc o.1 o.2.1 o.2.2)
            (emptyPathsCaches v)) sm q = none) := by
  constructor
  · intro c m1 m2 p x h
    simp [getPathsCache, getPathsCacheSt, setPathsCache, guidForConstructor, ← h,
      lookup_objSet_self]
  · intro ops sm q havoid
    exact getPathsCache_foldl_none ops sm q (emptyPathsCaches v) rfl havoid

/-- Concrete instance of claim C5: instance `⟨5, 1⟩` reads the value a
sibling instance `⟨5, 0⟩` of the same constructor stored (overwriting
an earlier value), and an unset path reads back `undefined`. -/
theorem pathsCache_shared_roundtrip_witness :
    getPathsCache
      (setPathsCache (setPathsCache (emptyPathsCaches Nat) ⟨5, 0⟩ "p" 7)
        ⟨5, 0⟩ "p" 42) ⟨5, 1⟩ "p" = some 42 ∧
    getPathsCache
      ([((⟨5, 0⟩ : Manager), ("p", 42))].foldl
        (fun acc o => setPathsCache acc o.1 o.2.1 o.2.2)
        (emptyPathsCaches Nat)) ⟨5, 1⟩ "r" = none :=
  ⟨(@pathsCache_shared_roundtrip Nat).1
      (setPathsCache (emptyPathsCaches Nat) ⟨5, 0⟩ "p" 7) ⟨5, 0⟩ ⟨5, 1⟩ "p" 42 rfl,
   (@pathsCache_shared_roundtrip Nat).2
      [((⟨5, 0⟩ : Manager), ("p", 42))] ⟨5, 1⟩ "r" (by decide)⟩

/-!
## Claim C6 — `trigger`
-/

/-- Claim C6: on a node that defines a same-named method and has
listeners registered for the event, `trigger` produces the method
call first, followed by the generic emission that notifies each
registered listener; the method runs exactly once with the arguments
after the event name, and each registered listener is notified
exactly once. -/
theorem trigger_method_then_emit {ctx : Type} [DecidableEq ctx]
    (n : TrigNode ctx) (e : String) (args : List ctx)
    (hm : n.hasMethod e = true) (hl : n.listeners e ≠ [])
    (hnd : (n.listeners e).Nodup) :
    trigger n e args =
      TraceEv.methodCall e args ::
        (n.listeners e).map (fun l => TraceEv.notify l e args) ∧
    (trigger n e args).count (TraceEv.methodCall e args) = 1 ∧
    (∀ l ∈ n.listeners e,
        (trigger n e args).count (TraceEv.notify l e args) = 1) := by
  have htr : trigger n e args =
      TraceEv.methodCall e args ::
        (n.listeners e).map (fun l => TraceEv.notify l e args) := by
    simp [trigger, hm]
  refine ⟨htr, ?_, ?_⟩
  · rw [htr]
    have h0 : ((n.listeners e).map (fun l => TraceEv.notify l e args)).count
        (TraceEv.methodCall e args) = 0 := by
      rw [List.count_eq_zero]
      intro hmem
      rcases List.mem_map.mp hmem with ⟨l, _, hcontr⟩
      exact TraceEv.noConfusion hcontr
    rw [List.count_cons_self, h0]
  · intro l hlmem
    rw [htr]
    have hne : TraceEv.notify l e args ≠ TraceEv.methodCall e args :=
      fun hcontr => TraceEv.noConfusion hcontr
    rw [List.count_cons_of_ne hne]
    have hinj : Function.Injective
        (fun k => (TraceEv.notify k e args : TraceEv ctx)) :=
      fun k1 k2 hk => by
        injection hk
    exact List.count_eq_one_of_mem (hnd.map hinj)
      (List.mem_map_of_mem (fun k => TraceEv.notify k e args) hlmem)

/-- Concrete instance of claim C6 on `enterNode`: the method call
precedes the notifications of listeners 4 and 7, and each happens
exactly once. -/
theorem trigger_method_then_emit_witness :
    trigger enterNode "enter" [9] =
      TraceEv.methodCall "enter" [9] ::
        (enterNode.listeners "enter").map (fun l => TraceEv.notify l "enter" [9]) ∧
    (trigger enterNode "enter" [9]).count (TraceEv.methodCall "enter" [9]) = 1 ∧
    (∀ l ∈ enterNode.listeners "enter",
        (trigger enterNode "enter" [9]).count (TraceEv.notify l "enter" [9]) = 1) :=
  trigger_method_then_emit enterNode "enter" [9] rfl (by decide) (by decide)

/-!
## Claim C1 — upward event-transition lookup
-/

theorem mem_of_lookup_eq_some {κ v : Type} [BEq κ] [LawfulBEq κ]
    {l : List (κ × v)} {k : κ} {x : v}
    (h : l.lookup k = some x) : (k, x) ∈ l := by
  induction l with
  | nil => simp [List.lookup] at h
  | cons hd tl ih =>
      obtain ⟨k1, x1⟩ := hd
      cases hbeq : (k == k1) with
      | true =>
          have hk : k = k1 := eq_of_beq hbeq
          rw [List.lookup, hbeq] at h
          cases h
          exact hk ▸ List.mem_cons_self _ _
      | false =>
          rw [List.lookup, hbeq] at h
          exact List.mem_cons_of_mem _ (ih h)

/-- Counterexample to claim C1 as stated: the `while (state && !path)`
loop treats a falsy (empty-string) `eventTransitions` entry like a
missing one on every node that has a parent, so the nearest node
*having* an entry does not always win.  With an `""` entry for `"e"`
on the node itself, the code returns absent when the parent has no
entry, and the parent's entry when it has one — in both cases not the
nearest declared entry `""`. -/
theorem lookup_event_empty_entry_cex :
    lookupEventTransition "e" [⟨none, [("e", "")]⟩, ⟨none, []⟩] = none ∧
    nearestDeclaredEntry "e" [⟨none, [("e", "")]⟩, ⟨none, []⟩] = some "" ∧
    lookupEventTransition "e" [⟨none, [("e", "")]⟩, ⟨none, [("e", "x")]⟩] = some "x" ∧
    nearestDeclaredEntry "e" [⟨none, [("e", "")]⟩, ⟨none, [("e", "x")]⟩] = some "" :=
  ⟨rfl, rfl, rfl, rfl⟩

/-- Claim C1 amended: on a chain all of whose declared
`eventTransitions` values are non-empty strings (every target
registered through `State.transitionTo` is such a value, but a
directly declared dictionary can hold `""`), `lookupEventTransition`
returns the entry of the nearest node on the parent chain having an
entry for the event, and absent when no node up to and including the
root has one. -/
theorem lookupEventTransition_nearest (name : String) (chain : List Frame)
    (hne : ∀ f ∈ chain, ∀ p ∈ f.eventTransitions, p.2 ≠ "") :
    lookupEventTransition name chain = nearestDeclaredEntry name chain := by
  induction chain with
  | nil => rfl
  | cons f rest ih =>
      have hf : ∀ p ∈ f.eventTransitions, p.2 ≠ "" :=
        hne f (List.mem_cons_self f rest)
      have hrest : ∀ g ∈ rest, ∀ p ∈ g.eventTransitions, p.2 ≠ "" :=
        fun g hg => hne g (List.mem_cons_of_mem f hg)
      cases rest with
      | nil =>
          cases hlook : f.eventTransitions.lookup name with
          | none => simp [lookupEventTransition, nearestDeclaredEntry, hlook]
          | some v => simp [lookupEventTransition, nearestDeclaredEntry, hlook]
      | cons r rs =>
          cases hlook : f.eventTransitions.lookup name with
          | none =>
              simpa [lookupEventTransition, nearestDeclaredEntry, hlook, jsTruthyStr]
                using ih hrest
          | some v =>
              have hv : v ≠ "" := hf (name, v) (mem_of_lookup_eq_some hlook)
              simp [lookupEventTransition, nearestDeclaredEntry, hlook, jsTruthyStr, hv]

/-- Concrete instance of amended claim C1: with non-empty targets, the
node's own declaration shadows the ancestor's. -/
theorem lookupEventTransition_nearest_witness :
    lookupEventTransition "go" [⟨none, [("go", "t1")]⟩, ⟨none, [("go", "t2")]⟩] =
      nearestDeclaredEntry "go" [⟨none, [("go", "t1")]⟩, ⟨none, [("go", "t2")]⟩] :=
  lookupEventTransition_nearest "go"
    [⟨none, [("go", "t1")]⟩, ⟨none, [("go", "t2")]⟩] (by decide)

/-!
## Claim C3 — the transition-action callable
-/

/-- Counterexample to claim C3 as stated: a `jQuery Event` argument
*without* an own `contexts` list is not forwarded literally — the
`else` on state.js line 338 belongs to the outer `if`, so the
contexts stay empty and only the target is forwarded. -/
theorem transitionFunction_event_no_contexts_cex :
    transitionFunction "stateTwo" [JSArg.event (none : Option (List Nat))] =
      ("stateTwo", []) ∧
    ("stateTwo", ([] : List (JSArg Nat))) ≠
      ("stateTwo", [JSArg.event (none : Option (List Nat))]) :=
  ⟨rfl, by decide⟩

/-- Claim C3 amended: the callable built for target `t`, invoked after
the manager with argument list `args`, forwards to the manager's
`transitionTo`: `t` followed by a shallow copy, in order, of the
`contexts` list when the first argument is a UI event carrying one;
`t` alone when the first argument is a UI event without one; and `t`
followed by all the arguments taken literally when the first argument
is not a UI event (or there are none). -/
theorem transitionFunction_forwarding {ctx : Type} :
    (∀ (t : String) (cs : List ctx) (rest : List (JSArg ctx)),
        transitionFunction t (JSArg.event (some cs) :: rest) =
          (t, cs.map JSArg.plain)) ∧
    (∀ (t : String) (rest : List (JSArg ctx)),
        transitionFunction t (JSArg.event none :: rest) = (t, [])) ∧
    (∀ (t : String) (args : List (JSArg ctx)),
        firstArgIsEvent args = false →
        transitionFunction t args = (t, args)) := by
  refine ⟨fun t cs rest => rfl, fun t rest => rfl, ?_⟩
  intro t args h
  cases args with
  | nil => rfl
  | cons a rest =>
      cases a with
      | plain v => rfl
      | event c => simp [firstArgIsEvent] at h

/-- Concrete instances of amended claim C3: the two invocation shapes
from the spec, `callable(manager, eventWithContexts [42])` forwarding
`["stateTwo", 42]`, and `callable(manager, 1, 2, 3)` forwarding
`["stateTwo", 1, 2, 3]`. -/
theorem transitionFunction_forwarding_witness :
    transitionFunction "stateTwo" [JSArg.event (some [42])] =
      ("stateTwo", [JSArg.plain 42]) ∧
    transitionFunction "stateTwo"
        [JSArg.plain 1, JSArg.plain 2, JSArg.plain (3 : Nat)] =
      ("stateTwo", [JSArg.plain 1, JSArg.plain 2, JSArg.plain 3]) :=
  ⟨(@transitionFunction_forwarding Nat).1 "stateTwo" [42] [],
   (@transitionFunction_forwarding Nat).2.2 "stateTwo"
      [JSArg.plain 1, JSArg.plain 2, JSArg.plain 3] rfl⟩

/-!
## Claim C4 — marker registration during the `init` scan
-/

theorem setupChild_ets_of_lt (m : Mem) (thisId : Nat) (st : List (String × Nat))
    (name : String) (value : DeclVal) (q : Nat) (hq : q < m.fresh) :
    ((setupChild m thisId st name value).1.heap q).eventTransitions =
      (m.heap q).eventTransitions := by
  cases value with
  | falsyV => rfl
  | otherTruthy => rfl
  | transFn t => rfl
  | stateInst i =>
      by_cases hqi : q = i <;> by_cases hqt : q = thisId <;>
        simp [setupChild, attachChild, updNode, hqi, hqt] <;>
        split_ifs <;> rfl
  | stateClass =>
      have hqf : q ≠ m.fresh := Nat.ne_of_lt hq
      by_cases hqt : q = thisId <;>
        simp [setupChild, attachChild, updNode, hqf, hqt] <;>
        split_ifs <;> first | rfl | omega

theorem setupChild_fresh_le (m : Mem) (thisId : Nat) (st : List (String × Nat))
    (name : String) (value : DeclVal) :
    m.fresh ≤ (setupChild m thisId st name value).1.fresh := by
  cases value with
  | falsyV => exact Nat.le_refl _
  | otherTruthy => exact Nat.le_refl _
  | transFn t => exact Nat.le_refl _
  | stateInst i => exact Nat.le_refl _
  | stateClass => exact Nat.le_succ _

theorem markerRegister_fresh (thisId : Nat) (m : Mem) (name : String) (v : DeclVal) :
    (markerRegister thisId m name v).fresh = m.fresh := by
  cases v with
  | transFn t =>
      by_cases ht : t = "" <;> simp [markerRegister, transitionTargetOf, ht] <;> rfl
  | falsyV => rfl
  | stateInst i => rfl
  | stateClass => rfl
  | otherTruthy => rfl

theorem registerTransition_ets (m : Mem) (thisId : Nat) (nm t : String) :
    ((registerTransition m thisId nm t).heap thisId).eventTransitions =
      objSet (m.heap thisId).eventTransitions nm t := by
  simp [registerTransition, updNode]

theorem markerRegister_ets (thisId : Nat) (m : Mem) (nm : String) (v : DeclVal)
    (name : String) (hname : nm ≠ name) :
    ((markerRegister thisId m nm v).heap thisId).eventTransitions.lookup name =
      (m.heap thisId).eventTransitions.lookup name := by
  cases v with
  | transFn t =>
      by_cases ht : t = ""
      · simp [markerRegister, transitionTargetOf, ht]
      · simp only [markerRegister, transitionTargetOf]
        rw [if_pos ht, registerTransition_ets]
        exact lookup_objSet_other _ _ _ _ (Ne.symm hname)
  | falsyV => rfl
  | stateInst i => rfl
  | stateClass => rfl
  | otherTruthy => rfl

theorem initScanStep_fresh (thisId : Nat) (acc : Mem × List (String × Nat))
    (p : String × DeclVal) (h : thisId < acc.1.fresh) :
    thisId < (initScanStep thisId acc p).1.fresh := by
  by_cases hc : p.1 = "constructor"
  · simpa [initScanStep, hc] using h
  · by_cases htr : jsTruthyVal p.2
    · have h1 : thisId < (markerRegister thisId acc.1 p.1 p.2).fresh := by
        rw [markerRegister_fresh]; exact h
      have h2 := setupChild_fresh_le (markerRegister thisId acc.1 p.1 p.2)
        thisId acc.2 p.1 p.2
      simp only [initScanStep, hc, if_false, htr, if_true, ite_false, ite_true]
      exact Nat.lt_of_lt_of_le h1 h2
    · simpa [initScanStep, hc, htr] using h

theorem initScanStep_ets (thisId : Nat) (acc : Mem × List (String × Nat))
    (p : String × DeclVal) (name : String)
    (hthis : thisId < acc.1.fresh) (hname : p.1 ≠ name) :
    ((initScanStep thisId acc p).1.heap thisId).eventTransitions.lookup name =
      ((acc.1.heap thisId).eventTransitions.lookup name) := by
  by_cases hc : p.1 = "constructor"
  · simp [initScanStep, hc]
  · by_cases htr : jsTruthyVal p.2
    · have h1 : thisId < (markerRegister thisId acc.1 p.1 p.2).fresh := by
        rw [markerRegister_fresh]; exact hthis
      simp only [initScanStep, hc, if_false, htr, if_true, ite_false, ite_true]
      rw [setupChild_ets_of_lt _ _ _ _ _ _ h1]
      exact markerRegister_ets thisId acc.1 p.1 p.2 name hname
    · simp [initScanStep, hc, htr]

theorem initScanFold_fresh (thisId : Nat) (decl : List (String × DeclVal))
    (acc : Mem × List (String × Nat)) (h : thisId < acc.1.fresh) :
    thisId < (decl.foldl (initScanStep thisId) acc).1.fresh := by
  induction decl generalizing acc with
  | nil => exact h
  | cons p rest ih =>
      simp only [List.foldl_cons]
      exact ih _ (initScanStep_fresh thisId acc p h)

theorem initScanFold_ets (thisId : Nat) (decl : List (String × DeclVal))
    (acc : Mem × List (String × Nat)) (name : String)
    (hthis : thisId < acc.1.fresh) (hnin : name ∉ decl.map Prod.fst) :
    ((decl.foldl (initScanStep thisId) acc).1.heap thisId).eventTransitions.lookup
        name =
      ((acc.1.heap thisId).eventTransitions.lookup name) := by
  induction decl generalizing acc with
  | nil => rfl
  | cons p rest ih =>
      have hp : p.1 ≠ name := by
        intro hcontr
        exact hnin (by simp [hcontr])
      have hrest : name ∉ rest.map Prod.fst := by
        intro hcontr
        exact hnin (by simp [hcontr])
      simp only [List.foldl_cons]
      rw [ih _ (initScanStep_fresh thisId acc p hthis) hrest]
      exact initScanStep_ets thisId acc p name hthis hp

theorem initScanFold_registers (thisId : Nat) (decl : List (String × DeclVal))
    (acc : Mem × List (String × Nat)) (name t : String)
    (hthis : thisId < acc.1.fresh)
    (hnd : (decl.map Prod.fst).Nodup)
    (hmem : (name, DeclVal.transFn t) ∈ decl)
    (hc : name ≠ "constructor") (ht : t ≠ "") :
    ((decl.foldl (initScanStep thisId) acc).1.heap thisId).eventTransitions.lookup
      name = some t := by
  induction decl generalizing acc with
  | nil => cases hmem
  | cons p rest ih =>
      have hnd1 : p.1 ∉ rest.map Prod.fst := (List.nodup_cons.mp hnd).1
      have hnd2 : (rest.map Prod.fst).Nodup := (List.nodup_cons.mp hnd).2
      have hstep : thisId < (initScanStep thisId acc p).1.fresh :=
        initScanStep_fresh thisId acc p hthis
      simp only [List.foldl_cons]
      rcases List.mem_cons.mp hmem with heq | hmemr
      · subst heq
        rw [initScanFold_ets thisId rest _ name hstep hnd1]
        have hred : (initScanStep thisId acc (name, DeclVal.transFn t)).1 =
            registerTransition acc.1 thisId name t := by
          simp only [initScanStep, jsTruthyVal, markerRegister, transitionTargetOf,
            setupChild]
          rw [if_neg hc, if_pos trivial, if_pos ht]
        rw [hred, registerTransition_ets]
        exact lookup_objSet_self _ _ _
      · exact ih _ hstep hnd2 hmemr

/-- Counterexample to claim C4 as stated: `State.transitionTo("")`
produces a non-falsy function value carrying the marker
`transitionTarget = ""`, yet `init`'s scan does not register it —
`if (transitionTarget = value.transitionTarget)` tests the *marker*
for truthiness, and the empty string is falsy. -/
theorem init_empty_marker_cex :
    jsTruthyVal (transitionTo "") = true ∧
    transitionTargetOf (transitionTo "") = some "" ∧
    ((initNoStates memThree 0 [("go", transitionTo "")]).1.heap 0).eventTransitions =
      [] :=
  ⟨rfl, rfl, rfl⟩

/-- Claim C4 amended: the callable produced by `State.transitionTo t`
carries a retrievable `transitionTarget` marker equal to `t`; during
`init`'s own-property scan (the no-explicit-`states` path), a property
holding such a value with a *non-empty* marker is registered into
`eventTransitions` under the property's name before the value's
structural processing by `setupChild` (the scan step is exactly
registration followed by `setupChild`), so after `init` the node's
`eventTransitions` maps the property name to the target. -/
theorem transitionTo_marker_registered :
    (∀ t : String, transitionTargetOf (transitionTo t) = some t) ∧
    (∀ (m : Mem) (thisId : Nat) (st : List (String × Nat)) (name t : String),
        name ≠ "constructor" → t ≠ "" →
        initScanStep thisId (m, st) (name, transitionTo t) =
          ((setupChild (registerTransition m thisId name t) thisId st name
              (transitionTo t)).1,
            (setupChild (registerTransition m thisId name t) thisId st name
              (transitionTo t)).2.1)) ∧
    (∀ (m : Mem) (thisId : Nat) (decl : List (String × DeclVal)) (name t : String),
        thisId < m.fresh →
        (decl.map Prod.fst).Nodup →
        (name, transitionTo t) ∈ decl →
        name ≠ "constructor" → t ≠ "" →
        ((initNoStates m thisId decl).1.heap thisId).eventTransitions.lookup name =
          some t) := by
  refine ⟨fun t => rfl, ?_, ?_⟩
  · intro m thisId st name t hc ht
    simp [initScanStep, transitionTo, jsTruthyVal, markerRegister,
      transitionTargetOf, hc, ht, setupChild]
  · intro m thisId decl name t hthis hnd hmem hc ht
    exact initScanFold_registers thisId decl
      (updNode m thisId (fun d => { d with childStates := [] }), []) name t
      hthis hnd hmem hc ht

/-- Concrete instance of amended claim C4: a declaration with a
`transitionTo "stateTwo"` property named `"go"` next to a child state
class registers `go ↦ stateTwo`. -/
theorem transitionTo_marker_registered_witness :
    transitionTargetOf (transitionTo "stateTwo") = some "stateTwo" ∧
    ((initNoStates memThree 0
        [("go", transitionTo "stateTwo"), ("sub", DeclVal.stateClass)]).1.heap
          0).eventTransitions.lookup "go" = some "stateTwo" :=
  ⟨transitionTo_marker_registered.1 "stateTwo",
   transitionTo_marker_registered.2.2 memThree 0
      [("go", transitionTo "stateTwo"), ("sub", DeclVal.stateClass)] "go" "stateTwo"
      (by decide) (by decide) (by decide) (by decide) (by decide)⟩

/-!
## Claim C9 — tree-ownership invariant

The shape lemmas below characterise the only structural fields
`setupChild` and the `init` loops touch: which `childStates` lists
grow, and whose `parentState` is redirected.
-/

theorem setupChild_childStates_inst (m : Mem) (thisId : Nat)
    (st : List (String × Nat)) (name : String) (i q : Nat) :
    ((setupChild m thisId st name (DeclVal.stateInst i)).1.heap q).childStates =
      (if q = thisId then (m.heap q).childStates ++ [i]
       else (m.heap q).childStates) := by
  by_cases hq1 : q = thisId <;> by_cases hq2 : q = i <;>
    simp [setupChild, attachChild, updNode, hq1, hq2] <;>
    split_ifs <;> first | rfl | omega

theorem setupChild_parentState_inst (m : Mem) (thisId : Nat)
    (st : List (String × Nat)) (name : String) (i q : Nat) :
    ((setupChild m thisId st name (DeclVal.stateInst i)).1.heap q).parentState =
      (if q = i then some thisId else (m.heap q).parentState) := by
  by_cases hq1 : q = thisId <;> by_cases hq2 : q = i <;>
    simp [setupChild, attachChild, updNode, hq1, hq2] <;>
    split_ifs <;> first | rfl | omega

theorem setupChild_childStates_class (m : Mem) (thisId : Nat)
    (st : List (String × Nat)) (name : String) (q : Nat)
    (hthis : thisId ≠ m.fresh) :
    ((setupChild m thisId st name DeclVal.stateClass).1.heap q).childStates =
      (if q = thisId then (m.heap q).childStates ++ [m.fresh]
       else if q = m.fresh then [] else (m.heap q).childStates) := by
  by_cases hq1 : q = thisId <;> by_cases hq2 : q = m.fresh <;>
    simp [setupChild, attachChild, updNode, hq1, hq2] <;>
    split_ifs <;> first | rfl | omega

theorem setupChild_parentState_class (m : Mem) (thisId : Nat)
    (st : List (String × Nat)) (name : String) (q : Nat)
    (hthis : thisId ≠ m.fresh) :
    ((setupChild m thisId st name DeclVal.stateClass).1.heap q).parentState =
      (if q = m.fresh then some thisId else (m.heap q).parentState) := by
  by_cases hq1 : q = thisId <;> by_cases hq2 : q = m.fresh <;>
    simp [setupChild, attachChild, updNode, hq1, hq2] <;>
    split_ifs <;> first | rfl | omega

theorem markerRegister_childStates (thisId : Nat) (m : Mem) (nm : String)
    (v : DeclVal) (q : Nat) :
    ((markerRegister thisId m nm v).heap q).childStates =
      (m.heap q).childStates := by
  cases v with
  | transFn t =>
      by_cases ht : t = "" <;> by_cases hq : q = thisId <;>
        simp [markerRegister, transitionTargetOf, registerTransition, updNode,
          ht, hq]
  | falsyV => rfl
  | stateInst i => rfl
  | stateClass => rfl
  | otherTruthy => rfl

theorem markerRegister_parentState (thisId : Nat) (m : Mem) (nm : String)
    (v : DeclVal) (q : Nat) :
    ((markerRegister thisId m nm v).heap q).parentState =
      (m.heap q).parentState := by
  cases v with
  | transFn t =>
      by_cases ht : t = "" <;> by_cases hq : q = thisId <;>
        simp [markerRegister, transitionTargetOf, registerTransition, updNode,
          ht, hq]
  | falsyV => rfl
  | stateInst i => rfl
  | stateClass => rfl
  | otherTruthy => rfl

theorem setupChild_preserves_inv (m : Mem) (thisId : Nat)
    (st : List (String × Nat)) (name : String) (value : DeclVal)
    (hthis : thisId < m.fresh) (hwf : WFMem m) (hinv : TreeInv m)
    (hval : ∀ i, value = DeclVal.stateInst i → i < m.fresh ∧ Unattached m i) :
    TreeInv (setupChild m thisId st name value).1 ∧
    WFMem (setupChild m thisId st name value).1 := by
  cases value with
  | falsyV => exact ⟨hinv, hwf⟩
  | transFn t => exact ⟨hinv, hwf⟩
  | otherTruthy => exact ⟨hinv, hwf⟩
  | stateInst i =>
      obtain ⟨hi, hun⟩ := hval i rfl
      have hfr : (setupChild m thisId st name (DeclVal.stateInst i)).1.fresh =
          m.fresh := rfl
      constructor
      · intro c hc p hp hmem
        rw [hfr] at hc hp
        rw [setupChild_childStates_inst] at hmem
        rw [setupChild_parentState_inst]
        by_cases hpt : p = thisId
        · subst hpt
          rw [if_pos rfl] at hmem
          rcases List.mem_append.mp hmem with hmem1 | hmem2
          · have hci : c ≠ i := fun h => hun p hp (h ▸ hmem1)
            rw [if_neg hci]
            exact hinv c hc p hp hmem1
          · have hci : c = i := by simpa using hmem2
            rw [if_pos hci]
        · rw [if_neg hpt] at hmem
          have hci : c ≠ i := fun h => hun p hp (h ▸ hmem)
          rw [if_neg hci]
          exact hinv c hc p hp hmem
      · intro p hp c hcmem
        rw [hfr] at hp ⊢
        rw [setupChild_childStates_inst] at hcmem
        by_cases hpt : p = thisId
        · rw [if_pos hpt] at hcmem
          rcases List.mem_append.mp hcmem with hmem1 | hmem2
          · exact hwf p hp c hmem1
          · have hci : c = i := by simpa using hmem2
            exact hci ▸ hi
        · rw [if_neg hpt] at hcmem
          exact hwf p hp c hcmem
  | stateClass =>
      have hne : thisId ≠ m.fresh := Nat.ne_of_lt hthis
      have hfr : (setupChild m thisId st name DeclVal.stateClass).1.fresh =
          m.fresh + 1 := rfl
      constructor
      · intro c hc p hp hmem
        rw [hfr] at hc hp
        rw [setupChild_childStates_class _ _ _ _ _ hne] at hmem
        rw [setupChild_parentState_class _ _ _ _ _ hne]
        by_cases hpt : p = thisId
        · subst hpt
          rw [if_pos rfl] at hmem
          rcases List.mem_append.mp hmem with hmem1 | hmem2
          · have hcf : c < m.fresh := hwf p hthis c hmem1
            rw [if_neg (Nat.ne_of_lt hcf)]
            exact hinv c hcf p hthis hmem1
          · have hci : c = m.fresh := by simpa using hmem2
            rw [if_pos hci]
        · rw [if_neg hpt] at hmem
          by_cases hpf : p = m.fresh
          · rw [if_pos hpf] at hmem
            exact absurd hmem (List.not_mem_nil c)
          · rw [if_neg hpf] at hmem
            have hp2 : p < m.fresh := by omega
            have hcf : c < m.fresh := hwf p hp2 c hmem
            rw [if_neg (Nat.ne_of_lt hcf)]
            exact hinv c hcf p hp2 hmem
      · intro p hp c hcmem
        rw [hfr] at hp ⊢
        rw [setupChild_childStates_class _ _ _ _ _ hne] at hcmem
        by_cases hpt : p = thisId
        · rw [if_pos hpt] at hcmem
          rcases List.mem_append.mp hcmem with hmem1 | hmem2
          · exact Nat.lt_succ_of_lt (hwf p (hpt ▸ hthis) c hmem1)
          · have hci : c = m.fresh := by simpa using hmem2
            omega
        · rw [if_neg hpt] at hcmem
          by_cases hpf : p = m.fresh
          · rw [if_pos hpf] at hcmem
            exact absurd hcmem (List.not_mem_nil c)
          · rw [if_neg hpf] at hcmem
            have hp2 : p < m.fresh := by omega
            exact Nat.lt_succ_of_lt (hwf p hp2 c hcmem)

theorem markerRegister_TreeInv (thisId : Nat) (m : Mem) (nm : String) (v : DeclVal)
    (h : TreeInv m) : TreeInv (markerRegister thisId m nm v) := by
  intro c hc p hp hmem
  rw [markerRegister_fresh] at hc hp
  rw [markerRegister_childStates] at hmem
  rw [markerRegister_parentState]
  exact h c hc p hp hmem

theorem markerRegister_WFMem (thisId : Nat) (m : Mem) (nm : String) (v : DeclVal)
    (h : WFMem m) : WFMem (markerRegister thisId m nm v) := by
  intro p hp c hcmem
  rw [markerRegister_fresh] at hp ⊢
  rw [markerRegister_childStates] at hcmem
  exact h p hp c hcmem

theorem markerRegister_Unattached (thisId : Nat) (m : Mem) (nm : String)
    (v : DeclVal) (j : Nat) (h : Unattached m j) :
    Unattached (markerRegister thisId m nm v) j := by
  intro p hp
  rw [markerRegister_fresh] at hp
  rw [markerRegister_childStates]
  exact h p hp

theorem setupChild_unattached (m : Mem) (thisId : Nat) (st : List (String × Nat))
    (name : String) (value : DeclVal) (j : Nat)
    (hthis : thisId < m.fresh) (hj : j < m.fresh) (hun : Unattached m j)
    (hne : ∀ i, value = DeclVal.stateInst i → i ≠ j) :
    Unattached (setupChild m thisId st name value).1 j := by
  cases value with
  | falsyV => exact hun
  | transFn t => exact hun
  | otherTruthy => exact hun
  | stateInst i =>
      have hij : i ≠ j := hne i rfl
      intro p hp
      rw [setupChild_childStates_inst]
      have hp2 : p < m.fresh := hp
      by_cases hpt : p = thisId
      · rw [if_pos hpt]
        simp only [List.mem_append, List.mem_singleton]
        rintro (hmem | hj2)
        · exact hun p hp2 hmem
        · exact hij hj2.symm
      · rw [if_neg hpt]
        exact hun p hp2
  | stateClass =>
      have hne2 : thisId ≠ m.fresh := Nat.ne_of_lt hthis
      intro p hp
      rw [setupChild_childStates_class _ _ _ _ _ hne2]
      have hp2 : p < m.fresh + 1 := hp
      by_cases hpt : p = thisId
      · rw [if_pos hpt]
        simp only [List.mem_append, List.mem_singleton]
        rintro (hmem | hj2)
        · exact hun p (hpt ▸ hthis) hmem
        · exact Nat.ne_of_lt hj hj2
      · rw [if_neg hpt]
        by_cases hpf : p = m.fresh
        · rw [if_pos hpf]
          exact List.not_mem_nil j
        · rw [if_neg hpf]
          exact hun p (by omega)

theorem statesHashStep_preserves (thisId : Nat) (acc : Mem × List (String × Nat))
    (p : String × DeclVal)
    (hthis : thisId < acc.1.fresh) (hwf : WFMem acc.1) (hinv : TreeInv acc.1)
    (hp : ∀ i, p.2 = DeclVal.stateInst i → i < acc.1.fresh ∧ Unattached acc.1 i) :
    TreeInv (statesHashStep thisId acc p).1 ∧ WFMem (statesHashStep thisId acc p).1 :=
  setupChild_preserves_inv acc.1 thisId acc.2 p.1 p.2 hthis hwf hinv hp

theorem statesHashStep_fresh_le (thisId : Nat) (acc : Mem × List (String × Nat))
    (p : String × DeclVal) :
    acc.1.fresh ≤ (statesHashStep thisId acc p).1.fresh :=
  setupChild_fresh_le acc.1 thisId acc.2 p.1 p.2

theorem statesHashStep_unattached (thisId : Nat) (acc : Mem × List (String × Nat))
    (p : String × DeclVal) (j : Nat)
    (hthis : thisId < acc.1.fresh) (hj : j < acc.1.fresh)
    (hun : Unattached acc.1 j)
    (hne : ∀ i, p.2 = DeclVal.stateInst i → i ≠ j) :
    Unattached (statesHashStep thisId acc p).1 j :=
  setupChild_unattached acc.1 thisId acc.2 p.1 p.2 j hthis hj hun hne

theorem initScanStep_cases (thisId : Nat) (acc : Mem × List (String × Nat))
    (p : String × DeclVal) :
    initScanStep thisId acc p = acc ∨
    initScanStep thisId acc p =
      statesHashStep thisId (markerRegister thisId acc.1 p.1 p.2, acc.2) p := by
  by_cases hc : p.1 = "constructor"
  · left; simp [initScanStep, hc]
  · by_cases htr : jsTruthyVal p.2
    · right
      simp only [initScanStep, statesHashStep]
      rw [if_neg hc, if_pos htr]
    · left; simp [initScanStep, hc, htr]

theorem initScanStep_preserves (thisId : Nat) (acc : Mem × List (String × Nat))
    (p : String × DeclVal)
    (hthis : thisId < acc.1.fresh) (hwf : WFMem acc.1) (hinv : TreeInv acc.1)
    (hp : ∀ i, p.2 = DeclVal.stateInst i → i < acc.1.fresh ∧ Unattached acc.1 i) :
    TreeInv (initScanStep thisId acc p).1 ∧ WFMem (initScanStep thisId acc p).1 := by
  rcases initScanStep_cases thisId acc p with heq | heq
  · rw [heq]; exact ⟨hinv, hwf⟩
  · rw [heq]
    refine statesHashStep_preserves thisId _ p ?_ ?_ ?_ ?_
    · simpa [markerRegister_fresh] using hthis
    · exact markerRegister_WFMem thisId acc.1 p.1 p.2 hwf
    · exact markerRegister_TreeInv thisId acc.1 p.1 p.2 hinv
    · intro i hi
      obtain ⟨h1, h2⟩ := hp i hi
      refine ⟨by simpa [markerRegister_fresh] using h1, ?_⟩
      exact markerRegister_Unattached thisId acc.1 p.1 p.2 i h2

theorem initScanStep_fresh_le (thisId : Nat) (acc : Mem × List (String × Nat))
    (p : String × DeclVal) :
    acc.1.fresh ≤ (initScanStep thisId acc p).1.fresh := by
  rcases initScanStep_cases thisId acc p with heq | heq
  · rw [heq]
  · rw [heq]
    calc acc.1.fresh = (markerRegister thisId acc.1 p.1 p.2).fresh :=
          (markerRegister_fresh thisId acc.1 p.1 p.2).symm
      _ ≤ _ := statesHashStep_fresh_le thisId
          (markerRegister thisId acc.1 p.1 p.2, acc.2) p

theorem initScanStep_unattached (thisId : Nat) (acc : Mem × List (String × Nat))
    (p : String × DeclVal) (j : Nat)
    (hthis : thisId < acc.1.fresh) (hj : j < acc.1.fresh)
    (hun : Unattached acc.1 j)
    (hne : ∀ i, p.2 = DeclVal.stateInst i → i ≠ j) :
    Unattached (initScanStep thisId acc p).1 j := by
  rcases initScanStep_cases thisId acc p with heq | heq
  · rw [heq]; exact hun
  · rw [heq]
    refine statesHashStep_unattached thisId _ p j ?_ ?_ ?_ hne
    · simpa [markerRegister_fresh] using hthis
    · simpa [markerRegister_fresh] using hj
    · exact markerRegister_Unattached thisId acc.1 p.1 p.2 j hun

theorem declInstId_eq_some {q : String × DeclVal} {i : Nat}
    (h : q.2 = DeclVal.stateInst i) : declInstId q = some i := by
  obtain ⟨qn, qv⟩ := q
  simp only at h
  subst h
  rfl

theorem initScanFold_preserves (thisId : Nat) (decl : List (String × DeclVal))
    (acc : Mem × List (String × Nat))
    (hthis : thisId < acc.1.fresh) (hwf : WFMem acc.1) (hinv : TreeInv acc.1)
    (hids : ∀ p ∈ decl, ∀ i, p.2 = DeclVal.stateInst i →
      i < acc.1.fresh ∧ Unattached acc.1 i)
    (hnd : (decl.filterMap declInstId).Nodup) :
    TreeInv (decl.foldl (initScanStep thisId) acc).1 ∧
    WFMem (decl.foldl (initScanStep thisId) acc).1 := by
  induction decl generalizing acc with
  | nil => exact ⟨hinv, hwf⟩
  | cons p rest ih =>
      have hphp : ∀ i, p.2 = DeclVal.stateInst i →
          i < acc.1.fresh ∧ Unattached acc.1 i :=
        hids p (List.mem_cons_self p rest)
      obtain ⟨hinv2, hwf2⟩ := initScanStep_preserves thisId acc p hthis hwf hinv hphp
      have hthis2 : thisId < (initScanStep thisId acc p).1.fresh :=
        initScanStep_fresh thisId acc p hthis
      have hfle : acc.1.fresh ≤ (initScanStep thisId acc p).1.fresh :=
        initScanStep_fresh_le thisId acc p
      simp only [List.foldl_cons]
      refine ih (initScanStep thisId acc p) hthis2 hwf2 hinv2 ?_ ?_
      · intro q hq i hqi
        obtain ⟨hi1, hi2⟩ := hids q (List.mem_cons_of_mem p hq) i hqi
        refine ⟨Nat.lt_of_lt_of_le hi1 hfle, ?_⟩
        refine initScanStep_unattached thisId acc p i hthis hi1 hi2 ?_
        intro i2 hpi2 hcontr
        subst hcontr
        have hpsome : declInstId p = some i2 := declInstId_eq_some hpi2
        have hqsome : i2 ∈ rest.filterMap declInstId :=
          List.mem_filterMap.mpr ⟨q, hq, declInstId_eq_some hqi⟩
        rw [List.filterMap_cons, hpsome] at hnd
        exact (List.nodup_cons.mp hnd).1 hqsome
      · rcases hps : declInstId p with _ | i0
        · rwa [List.filterMap_cons, hps] at hnd
        · rw [List.filterMap_cons, hps] at hnd
          exact (List.nodup_cons.mp hnd).2

theorem statesHashFold_preserves (thisId : Nat) (decl : List (String × DeclVal))
    (acc : Mem × List (String × Nat))
    (hthis : thisId < acc.1.fresh) (hwf : WFMem acc.1) (hinv : TreeInv acc.1)
    (hids : ∀ p ∈ decl, ∀ i, p.2 = DeclVal.stateInst i →
      i < acc.1.fresh ∧ Unattached acc.1 i)
    (hnd : (decl.filterMap declInstId).Nodup) :
    TreeInv (decl.foldl (statesHashStep thisId) acc).1 ∧
    WFMem (decl.foldl (statesHashStep thisId) acc).1 := by
  induction decl generalizing acc with
  | nil => exact ⟨hinv, hwf⟩
  | cons p rest ih =>
      have hphp : ∀ i, p.2 = DeclVal.stateInst i →
          i < acc.1.fresh ∧ Unattached acc.1 i :=
        hids p (List.mem_cons_self p rest)
      obtain ⟨hinv2, hwf2⟩ := statesHashStep_preserves thisId acc p hthis hwf hinv hphp
      have hfle : acc.1.fresh ≤ (statesHashStep thisId acc p).1.fresh :=
        statesHashStep_fresh_le thisId acc p
      have hthis2 : thisId < (statesHashStep thisId acc p).1.fresh :=
        Nat.lt_of_lt_of_le hthis hfle
      simp only [List.foldl_cons]
      refine ih (statesHashStep thisId acc p) hthis2 hwf2 hinv2 ?_ ?_
      · intro q hq i hqi
        obtain ⟨hi1, hi2⟩ := hids q (List.mem_cons_of_mem p hq) i hqi
        refine ⟨Nat.lt_of_lt_of_le hi1 hfle, ?_⟩
        refine statesHashStep_unattached thisId acc p i hthis hi1 hi2 ?_
        intro i2 hpi2 hcontr
        subst hcontr
        have hpsome : declInstId p = some i2 := declInstId_eq_some hpi2
        have hqsome : i2 ∈ rest.filterMap declInstId :=
          List.mem_filterMap.mpr ⟨q, hq, declInstId_eq_some hqi⟩
        rw [List.filterMap_cons, hpsome] at hnd
        exact (List.nodup_cons.mp hnd).1 hqsome
      · rcases hps : declInstId p with _ | i0
        · rwa [List.filterMap_cons, hps] at hnd
        · rw [List.filterMap_cons, hps] at hnd
          exact (List.nodup_cons.mp hnd).2

theorem resetChildStates_childStates (m : Mem) (thisId q : Nat) :
    ((updNode m thisId (fun d => { d with childStates := [] })).heap q).childStates =
      (if q = thisId then [] else (m.heap q).childStates) := by
  by_cases hq : q = thisId <;> simp [updNode, hq]

theorem resetChildStates_parentState (m : Mem) (thisId q : Nat) :
    ((updNode m thisId (fun d => { d with childStates := [] })).heap q).parentState =
      (m.heap q).parentState := by
  by_cases hq : q = thisId <;> simp [updNode, hq]

theorem resetChildStates_TreeInv (m : Mem) (thisId : Nat) (h : TreeInv m) :
    TreeInv (updNode m thisId (fun d => { d with childStates := [] })) := by
  intro c hc p hp hmem
  rw [resetChildStates_childStates] at hmem
  rw [resetChildStates_parentState]
  by_cases hpt : p = thisId
  · rw [if_pos hpt] at hmem
    exact absurd hmem (List.not_mem_nil c)
  · rw [if_neg hpt] at hmem
    exact h c hc p hp hmem

theorem resetChildStates_WFMem (m : Mem) (thisId : Nat) (h : WFMem m) :
    WFMem (updNode m thisId (fun d => { d with childStates := [] })) := by
  intro p hp c hcmem
  rw [resetChildStates_childStates] at hcmem
  by_cases hpt : p = thisId
  · rw [if_pos hpt] at hcmem
    exact absurd hcmem (List.not_mem_nil c)
  · rw [if_neg hpt] at hcmem
    exact h p hp c hcmem

theorem resetChildStates_Unattached (m : Mem) (thisId j : Nat)
    (h : Unattached m j) :
    Unattached (updNode m thisId (fun d => { d with childStates := [] })) j := by
  intro p hp
  rw [resetChildStates_childStates]
  by_cases hpt : p = thisId
  · rw [if_pos hpt]
    exact List.not_mem_nil j
  · rw [if_neg hpt]
    exact h p hp

/-- Counterexample to claim C9 as stated: `setupChild` reparents an
already-attached `State` instance without removing it from its former
parent's `childStates`.  Attaching node 0 to node 1 and then to node 2
leaves node 0 registered as a child of both, while its `parentState`
designates only node 2 — the ownership invariant is not preserved by
every sequence of attachments. -/
theorem setupChild_reattach_cex :
    TreeInv memThree ∧ WFMem memThree ∧ TreeInv memAttachOnce ∧
    0 ∈ (memReattached.heap 1).childStates ∧
    0 ∈ (memReattached.heap 2).childStates ∧
    (memReattached.heap 0).parentState = some 2 ∧
    ¬ TreeInv memReattached := by decide

/-- Claim C9 amended: the ownership invariant — every node registered
in a `childStates` list is registered in exactly one, namely that of
the node its `parentState` designates — is preserved by `setupChild`
and by both `init` paths *provided* every attached `State` instance is
unattached when it is handed over and no instance appears twice in one
declaration (re-attaching an already-attached instance, the behaviour
the counterexample exhibits, is excluded).  Heap well-formedness
(child identities are allocated) is preserved alongside. -/
theorem ownership_invariant_preserved :
    (∀ (m : Mem) (thisId : Nat) (st : List (String × Nat)) (name : String)
        (value : DeclVal),
        thisId < m.fresh → WFMem m → TreeInv m →
        (∀ i, value = DeclVal.stateInst i → i < m.fresh ∧ Unattached m i) →
        TreeInv (setupChild m thisId st name value).1 ∧
        WFMem (setupChild m thisId st name value).1) ∧
    (∀ (m : Mem) (thisId : Nat) (decl : List (String × DeclVal)),
        thisId < m.fresh → WFMem m → TreeInv m →
        (∀ p ∈ decl, ∀ i, p.2 = DeclVal.stateInst i →
          i < m.fresh ∧ Unattached m i) →
        (decl.filterMap declInstId).Nodup →
        TreeInv (initNoStates m thisId decl).1 ∧
        WFMem (initNoStates m thisId decl).1) ∧
    (∀ (m : Mem) (thisId : Nat) (statesDecl : List (String × DeclVal)),
        thisId < m.fresh → WFMem m → TreeInv m →
        (∀ p ∈ statesDecl, ∀ i, p.2 = DeclVal.stateInst i →
          i < m.fresh ∧ Unattached m i) →
        (statesDecl.filterMap declInstId).Nodup →
        TreeInv (initWithStates m thisId statesDecl).1 ∧
        WFMem (initWithStates m thisId statesDecl).1) := by
  refine ⟨setupChild_preserves_inv, ?_, ?_⟩
  · intro m thisId decl hthis hwf hinv hids hnd
    refine initScanFold_preserves thisId decl
      (updNode m thisId (fun d => { d with childStates := [] }), []) hthis
      (resetChildStates_WFMem m thisId hwf)
      (resetChildStates_TreeInv m thisId hinv) ?_ hnd
    intro p hp i hi
    obtain ⟨h1, h2⟩ := hids p hp i hi
    exact ⟨h1, resetChildStates_Unattached m thisId i h2⟩
  · intro m thisId statesDecl hthis hwf hinv hids hnd
    refine statesHashFold_preserves thisId statesDecl
      (updNode m thisId (fun d => { d with childStates := [] }), []) hthis
      (resetChildStates_WFMem m thisId hwf)
      (resetChildStates_TreeInv m thisId hinv) ?_ hnd
    intro p hp i hi
    obtain ⟨h1, h2⟩ := hids p hp i hi
    exact ⟨h1, resetChildStates_Unattached m thisId i h2⟩

/-- Concrete instances of amended claim C9: a first-time attachment by
`setupChild`, an `init` scan with a transition action, an instance and
a class, and an explicit-`states` `init`, all on the three-node heap,
preserve the ownership invariant. -/
theorem ownership_invariant_preserved_witness :
    (TreeInv (setupChild memThree 1 [] "x" (DeclVal.stateInst 0)).1 ∧
      WFMem (setupChild memThree 1 [] "x" (DeclVal.stateInst 0)).1) ∧
    (TreeInv (initNoStates memThree 1
        [("go", transitionTo "t"), ("c", DeclVal.stateInst 0),
          ("k", DeclVal.stateClass)]).1 ∧
      WFMem (initNoStates memThree 1
        [("go", transitionTo "t"), ("c", DeclVal.stateInst 0),
          ("k", DeclVal.stateClass)]).1) ∧
    (TreeInv (initWithStates memThree 1 [("c", DeclVal.stateInst 0)]).1 ∧
      WFMem (initWithStates memThree 1 [("c", DeclVal.stateInst 0)]).1) :=
  ⟨ownership_invariant_preserved.1 memThree 1 [] "x" (DeclVal.stateInst 0)
      (by decide) (by decide) (by decide)
      (fun i h => by cases h; exact ⟨by decide, by decide⟩),
   ownership_invariant_preserved.2.1 memThree 1
      [("go", transitionTo "t"), ("c", DeclVal.stateInst 0),
        ("k", DeclVal.stateClass)]
      (by decide) (by decide) (by decide)
      (by
        intro p hp i hi
        simp only [List.mem_cons, List.not_mem_nil, or_false] at hp
        rcases hp with rfl | rfl | rfl
        · exact DeclVal.noConfusion hi
        · cases hi
          exact ⟨by decide, by decide⟩
        · exact DeclVal.noConfusion hi)
      (by decide),
   ownership_invariant_preserved.2.2 memThree 1 [("c", DeclVal.stateInst 0)]
      (by decide) (by decide) (by decide)
      (by
        intro p hp i hi
        simp only [List.mem_cons, List.not_mem_nil, or_false] at hp
        rcases hp with rfl
        cases hi
        exact ⟨by decide, by decide⟩)
      (by decide)⟩

end EmberStates
